import Mathlib

/-!
Verification of the polarization simulation engine (`polar.py`).

The Python source is shallowly embedded below.  Opinions are modelled as
rationals (`ℚ`); the numpy pseudo-random generator is modelled as an
explicit stream of natural numbers together with a read position (the
stream stands for the output sequence that `np.random.default_rng(123)`
deterministically produces from its fixed seed).  Candidate graphs
produced by `nx.erdos_renyi_graph` — which draws from Python's *global*
random state, not from the model's generator — are passed in as an
explicit list of candidates consumed by the connectivity retry loop.
Fallible indexing (Python `IndexError`) is modelled with `Option`.
-/

/-- The output stream of a seeded pseudo-random generator, plus the
position of the next value to be read.  `np.random.default_rng(seed)`
determines `stream` as a fixed function of the seed. -/
structure RandomSource where
  stream : Nat → Nat
  pos : Nat

/-- Read one raw value from the generator and advance it. -/
def RandomSource.next (r : RandomSource) : Nat × RandomSource :=
  (r.stream r.pos, { r with pos := r.pos + 1 })

/-- Granularity of a uniform draw in `[0,1)` (an IEEE double has 53
mantissa bits, so `np.random.uniform(0,1)` takes values `k / 2^53`). -/
def DRAW_DENOM : Nat := 2 ^ 53

/-- One draw of `np.random.uniform(0,1)`: a rational in `[0, 1)`. -/
def RandomSource.uniform01 (r : RandomSource) : ℚ × RandomSource :=
  let (v, r1) := r.next
  (((v % DRAW_DENOM : Nat) : ℚ) / (DRAW_DENOM : ℚ), r1)

/-- `model.random.uniform(0, 1, size=k)`: a vector of `k` uniform draws. -/
def drawOpinions (r : RandomSource) : Nat → List ℚ × RandomSource
  | 0 => ([], r)
  | k + 1 =>
    let (q, r1) := r.uniform01
    let (rest, r2) := drawOpinions r1 k
    (q :: rest, r2)

/-- `model.random.choice(l)`: draw one element of `l` (uniformly in the
real program; here the raw stream value selects the index). -/
def RandomSource.choice (r : RandomSource) (l : List Nat) : Nat × RandomSource :=
  let (v, r1) := r.next
  (l.getD (v % l.length) 0, r1)

/-- `model.random.choice(np.arange(0, I), size=2, replace=False)`:
two distinct indices drawn without replacement from `{0, …, I-1}`
(the second draw ranges over the remaining indices). -/
def drawPair (r : RandomSource) (I : Nat) : (Nat × Nat) × RandomSource :=
  let (v1, r1) := r.next
  let l := List.range I
  let i1 := v1 % I
  let cmpIdx := l.getD i1 0
  let l2 := l.eraseIdx i1
  let (v2, r2) := r1.next
  let persIdx := l2.getD (v2 % l2.length) 0
  ((cmpIdx, persIdx), r2)

/-- Fisher–Yates style shuffle: repeatedly draw a position in the
remaining list and move that element to the front.  `fuel` is the length
of the list being shuffled (structural recursion). -/
def drawPermAux : Nat → List Nat → RandomSource → List Nat × RandomSource
  | 0, _, r => ([], r)
  | _ + 1, [], r => ([], r)
  | fuel + 1, l@(_ :: _), r =>
    let (v, r1) := r.next
    let i := v % l.length
    let x := l.getD i 0
    let (rest, r2) := drawPermAux fuel (l.eraseIdx i) r1
    (x :: rest, r2)

/-- An undirected graph on nodes `0, …, n-1` given by an edge list
(`networkx` graph, as produced by `nx.erdos_renyi_graph`). -/
structure SGraph where
  n : Nat
  edges : List (Nat × Nat)
deriving DecidableEq

/-- `G.adj[v]`: the list of neighbors of `v` (an edge in either
orientation contributes its other endpoint). -/
def SGraph.adjList (g : SGraph) (v : Nat) : List Nat :=
  g.edges.filterMap fun e =>
    if e.1 = v then some e.2 else if e.2 = v then some e.1 else none

/-- The adjacency relation of the undirected graph. -/
def SGraph.Adj (g : SGraph) (u v : Nat) : Prop :=
  (u, v) ∈ g.edges ∨ (v, u) ∈ g.edges

/-- One breadth expansion: keep the frontier and add every neighbor. -/
def SGraph.expand (g : SGraph) (s : List Nat) : List Nat :=
  s ++ s.flatMap g.adjList

/-- Nodes reachable from the start set within `fuel` expansions. -/
def SGraph.reachAux (g : SGraph) : Nat → List Nat → List Nat
  | 0, s => s
  | k + 1, s => g.reachAux k (g.expand s)

/-- `nx.is_connected(G)`: every node is reachable from node `0`
(`g.n` expansions reach every node at distance `< g.n`). -/
def SGraph.is_connected (g : SGraph) : Bool :=
  (List.range g.n).all fun v => (g.reachAux g.n [0]).contains v

/-- The connectivity property: every pair of nodes is joined by a path. -/
def SGraph.ConnectedProp (g : SGraph) : Prop :=
  ∀ u v, u < g.n → v < g.n → Relation.ReflTransGen g.Adj u v

/-- `CitizenAgent`: an id plus an opinion vector of length `num_issues`. -/
structure CitizenAgent where
  unique_id : Nat
  opinions : List ℚ
deriving DecidableEq

/-- Placeholder agent used to totalize list indexing. -/
def dummyAgent : CitizenAgent := { unique_id := 0, opinions := [] }

/-- The body of `CitizenAgent.step` after the neighbor `nei` and the
issue pair `(compare, persuade)` have been drawn:  if the two agents
differ by more than `Cthresh` on the comparison issue nothing changes,
otherwise the caller's persuade-issue opinion moves to the average of
the two agents' values on that issue. -/
def citizenStepCore (a nei : CitizenAgent) (Cthresh : ℚ) (cmpIdx persIdx : Nat) :
    CitizenAgent :=
  if |a.opinions.getD cmpIdx 0 - nei.opinions.getD cmpIdx 0| > Cthresh then a
  else
    { a with
      opinions := a.opinions.set persIdx
        ((a.opinions.getD persIdx 0 + nei.opinions.getD persIdx 0) / 2) }

/-- The simulation engine `SocialWorld`.  `rng` is `self.random`
(`np.random.default_rng(123)`); `series` is the `DataCollector`'s
model-variables table, one record per collection. -/
structure SocialWorld where
  max_steps : Nat
  num_agents : Nat
  num_issues : Nat
  Cthresh : ℚ
  p : ℚ
  G : SGraph
  agents : List CitizenAgent
  num_steps : Nat
  running : Bool
  series : List (List (String × Option ℚ))
  rng : RandomSource

/-- `get_opinion(model, agent_num, issue_num)`:
`model.schedule.agents[agent_num].opinions[issue_num]`; `none` models
Python's `IndexError` when either index is out of range. -/
def get_opinion (m : SocialWorld) (agent_num issue_num : Nat) : Option ℚ :=
  (m.agents[agent_num]?).bind fun c => c.opinions[issue_num]?

/-- Population variance of a pooled list of rationals (`np .var()`). -/
def listVar (l : List ℚ) : ℚ :=
  let mu := l.sum / (l.length : ℚ)
  ((l.map fun x => (x - mu) ^ 2).sum) / (l.length : ℚ)

/-- `mean_opinion_var(model)`: the variance of the flattened
`num_issues × num_agents` array of all opinion values. -/
def mean_opinion_var (m : SocialWorld) : ℚ :=
  listVar ((List.range m.num_issues).flatMap fun i =>
    m.agents.map fun c => c.opinions.getD i 0)

/-- The `(agent, issue)` pairs of the declared model reporters:
`for a in range(4) for i in range(3)` — unconditionally, whatever
`N` and `I` are. -/
def reporterPairs : List (Nat × Nat) :=
  (List.range 4).flatMap fun a => (List.range 3).map fun i => (a, i)

/-- The reporter name `"agent" + str(a) + "_iss" + str(i)`. -/
def reporterName (a i : Nat) : String :=
  "agent" ++ toString a ++ "_iss" ++ toString i

/-- `DataCollector.collect(model)`: one record, mapping each declared
reporter name to the value its accessor returns on the current model. -/
def collectRecord (m : SocialWorld) : List (String × Option ℚ) :=
  reporterPairs.map fun pr => (reporterName pr.1 pr.2, get_opinion m pr.1 pr.2)

/-- One activation of agent `aid` (`CitizenAgent.step`): look up the
neighbor list; with no neighbors do nothing; otherwise draw a neighbor,
draw a distinct issue pair, and apply the compare/persuade rule.  Only
the activated agent's entry in the agent list can change. -/
def activateAgent (m : SocialWorld) (aid : Nat) : SocialWorld :=
  if (m.G.adjList aid).length = 0 then m
  else
    let neis := m.G.adjList aid
    let (nid, r1) := m.rng.choice neis
    let a := m.agents.getD aid dummyAgent
    let nei := m.agents.getD nid dummyAgent
    let (pairIdx, r2) := drawPair r1 a.opinions.length
    let a1 := citizenStepCore a nei m.Cthresh pairIdx.1 pairIdx.2
    { m with agents := m.agents.set aid a1, rng := r2 }

/-- Modelled from the spec: `mesa.time.RandomActivation` is an external
library dependency (not part of this repository's source).  Per the
spec's Scheduler contract, each step draws a fresh full permutation of
all agent identifiers from the model's random source. -/
def schedOrder (m : SocialWorld) : List Nat × RandomSource :=
  drawPermAux m.num_agents (List.range m.num_agents) m.rng

/-- Modelled from the spec: `RandomActivation.step()` — shuffle the
agent ids, then activate each agent exactly once in that order. -/
def schedStep (m : SocialWorld) : SocialWorld :=
  let (order, r1) := schedOrder m
  order.foldl activateAgent { m with rng := r1 }

/-- `SocialWorld.step`: if not running, return; if the step counter has
reached `max_steps`, clear the running flag (the Python body has no
early return here — it falls through); then increment the counter,
collect metrics, and run the scheduler. -/
def SocialWorld.step (m : SocialWorld) : SocialWorld :=
  if m.running then
    let m1 := if m.max_steps ≤ m.num_steps then { m with running := false } else m
    let m2 := { m1 with num_steps := m1.num_steps + 1 }
    let m3 := { m2 with series := m2.series ++ [collectRecord m2] }
    schedStep m3
  else m

/-- `SocialWorld.run`: `for _ in range(self.max_steps): self.step()`. -/
def SocialWorld.run (m : SocialWorld) : SocialWorld :=
  (List.range m.max_steps).foldl (fun s _ => s.step) m

/-- Agent creation loop of `SocialWorld.__init__`: for each id in
order, draw an opinion vector of length `I` from the model's generator. -/
def mkAgentsAux (I : Nat) : List Nat → RandomSource → List CitizenAgent × RandomSource
  | [], r => ([], r)
  | i :: rest, r =>
    let (ops, r1) := drawOpinions r I
    let (cs, r2) := mkAgentsAux I rest r1
    ({ unique_id := i, opinions := ops } :: cs, r2)

/-- The fully initialized engine, given the connected graph the retry
loop settled on. -/
def mkWorld (T N I : Nat) (Cthresh ER_p : ℚ) (stream : Nat → Nat) (G : SGraph) :
    SocialWorld :=
  let r0 : RandomSource := { stream := stream, pos := 0 }
  let (agents, r1) := mkAgentsAux I (List.range N) r0
  { max_steps := T, num_agents := N, num_issues := I, Cthresh := Cthresh,
    p := ER_p, G := G, agents := agents, num_steps := 0, running := true,
    series := [], rng := r1 }

/-- `SocialWorld.__init__`: `stream` is the output of
`np.random.default_rng(123)` (a fixed function of the hard-coded seed);
`cands` is the sequence of graphs `nx.erdos_renyi_graph(N, ER_p)`
produces from Python's global random state — the retry loop keeps the
first connected one, and `none` models a retry loop that never finds a
connected graph among the candidates supplied. -/
def SocialWorld.init (T N I : Nat) (Cthresh ER_p : ℚ) (stream : Nat → Nat)
    (cands : List SGraph) : Option SocialWorld :=
  (cands.find? SGraph.is_connected).map (mkWorld T N I Cthresh ER_p stream)

/-- Placeholder world used to name concrete instances of `init`. -/
def dummyWorld : SocialWorld :=
  { max_steps := 0, num_agents := 0, num_issues := 0, Cthresh := 0, p := 0,
    G := { n := 0, edges := [] }, agents := [], num_steps := 0,
    running := false, series := [], rng := { stream := fun _ => 0, pos := 0 } }

/-! ### Frame lemmas: which fields each operation leaves untouched -/

lemma activateAgent_frame (m : SocialWorld) (aid : Nat) :
    (activateAgent m aid).series = m.series ∧
    (activateAgent m aid).num_steps = m.num_steps ∧
    (activateAgent m aid).running = m.running ∧
    (activateAgent m aid).max_steps = m.max_steps ∧
    (activateAgent m aid).G = m.G ∧
    (activateAgent m aid).num_agents = m.num_agents ∧
    (activateAgent m aid).num_issues = m.num_issues ∧
    (activateAgent m aid).Cthresh = m.Cthresh := by
  unfold activateAgent
  split <;> exact ⟨rfl, rfl, rfl, rfl, rfl, rfl, rfl, rfl⟩

lemma foldl_activate_frame (l : List Nat) (m : SocialWorld) :
    (l.foldl activateAgent m).series = m.series ∧
    (l.foldl activateAgent m).num_steps = m.num_steps ∧
    (l.foldl activateAgent m).running = m.running ∧
    (l.foldl activateAgent m).max_steps = m.max_steps ∧
    (l.foldl activateAgent m).G = m.G ∧
    (l.foldl activateAgent m).num_agents = m.num_agents := by
  induction l generalizing m with
  | nil => exact ⟨rfl, rfl, rfl, rfl, rfl, rfl⟩
  | cons aid rest ih =>
    have h1 := activateAgent_frame m aid
    have h2 := ih (activateAgent m aid)
    simp only [List.foldl_cons]
    exact ⟨h2.1.trans h1.1, h2.2.1.trans h1.2.1, h2.2.2.1.trans h1.2.2.1,
      h2.2.2.2.1.trans h1.2.2.2.1, h2.2.2.2.2.1.trans h1.2.2.2.2.1,
      h2.2.2.2.2.2.trans h1.2.2.2.2.2.1⟩

lemma schedStep_frame (m : SocialWorld) :
    (schedStep m).series = m.series ∧
    (schedStep m).num_steps = m.num_steps ∧
    (schedStep m).running = m.running ∧
    (schedStep m).max_steps = m.max_steps ∧
    (schedStep m).G = m.G ∧
    (schedStep m).num_agents = m.num_agents := by
  unfold schedStep
  exact foldl_activate_frame _ _

/-- Metric collection reads only the agent list, so updates to the
bookkeeping fields do not change the collected record. -/
lemma collectRecord_congr (m m' : SocialWorld) (h : m'.agents = m.agents) :
    collectRecord m' = collectRecord m := by
  simp [collectRecord, get_opinion, h]

/-- Characterization of `SocialWorld.step`: when not running it is the
identity; when running, the terminal check only decides the new value of
the running flag — the counter increment, the metric collection and the
scheduler activation happen unconditionally. -/
lemma step_eq (m : SocialWorld) :
    m.step =
      if m.running then
        schedStep { m with running := decide (m.num_steps < m.max_steps),
                           num_steps := m.num_steps + 1,
                           series := m.series ++ [collectRecord m] }
      else m := by
  obtain ⟨mx, na, ni, c, pp, g, ag, ns, run, ser, rg⟩ := m
  cases run with
  | false => rfl
  | true =>
    by_cases ht : mx ≤ ns
    · have hd : decide (ns < mx) = false := decide_eq_false (Nat.not_lt.mpr ht)
      show schedStep _ = schedStep _
      rw [if_pos ht, hd]
      rfl
    · have hd : decide (ns < mx) = true := decide_eq_true (Nat.lt_of_not_le ht)
      show schedStep _ = schedStep _
      rw [if_neg ht, hd]
      rfl

lemma step_frame (m : SocialWorld) :
    (m.step).max_steps = m.max_steps ∧ (m.step).G = m.G ∧
    (m.step).num_agents = m.num_agents := by
  rw [step_eq]
  by_cases hr : m.running = true
  · rw [if_pos hr]
    exact ⟨(schedStep_frame _).2.2.2.1, (schedStep_frame _).2.2.2.2.1,
      (schedStep_frame _).2.2.2.2.2⟩
  · rw [if_neg hr]
    exact ⟨rfl, rfl, rfl⟩

/-! ### The shuffled activation order is a permutation -/

lemma getD_cons_eraseIdx_perm :
    ∀ (l : List Nat) (i : Nat), i < l.length →
      (l.getD i 0 :: l.eraseIdx i).Perm l := by
  intro l
  induction l with
  | nil => intro i hi; simp at hi
  | cons x xs ih =>
    intro i hi
    cases i with
    | zero => simp
    | succ j =>
      have hj : j < xs.length := by simpa using hi
      have step1 : (xs.getD j 0 :: x :: xs.eraseIdx j).Perm
          (x :: xs.getD j 0 :: xs.eraseIdx j) := List.Perm.swap _ _ _
      have step2 : (x :: xs.getD j 0 :: xs.eraseIdx j).Perm (x :: xs) :=
        (ih j hj).cons x
      simpa using step1.trans step2

lemma drawPermAux_perm :
    ∀ (fuel : Nat) (l : List Nat) (r : RandomSource), l.length = fuel →
      ((drawPermAux fuel l r).1).Perm l := by
  intro fuel
  induction fuel with
  | zero =>
    intro l r hl
    have : l = [] := List.eq_nil_of_length_eq_zero hl
    subst this
    simp [drawPermAux]
  | succ k ih =>
    intro l r hl
    cases l with
    | nil => simp at hl
    | cons x xs =>
      have hi : (r.stream r.pos) % (x :: xs).length < (x :: xs).length :=
        Nat.mod_lt _ (by simp)
      have hlen : ((x :: xs).eraseIdx ((r.stream r.pos) % (x :: xs).length)).length = k := by
        rw [List.length_eraseIdx_of_lt hi]
        simpa using congrArg (· - 1) hl
      have hrec := ih ((x :: xs).eraseIdx ((r.stream r.pos) % (x :: xs).length))
        (r.next).2 hlen
      have hcons := getD_cons_eraseIdx_perm (x :: xs) _ hi
      exact (hrec.cons _).trans hcons

/-! ### Connectivity: the executable check implies pairwise reachability -/

lemma adj_of_mem_adjList (g : SGraph) (y x : Nat) (h : x ∈ g.adjList y) :
    g.Adj y x := by
  unfold SGraph.adjList at h
  rcases List.mem_filterMap.mp h with ⟨e, he, hx⟩
  by_cases h1 : e.1 = y
  · rw [if_pos h1] at hx
    left
    have : e = (y, x) := by
      cases e
      simp only [Option.some.injEq] at hx
      simp_all
    rwa [this] at he
  · rw [if_neg h1] at hx
    by_cases h2 : e.2 = y
    · rw [if_pos h2] at hx
      right
      have : e = (x, y) := by
        cases e
        simp only [Option.some.injEq] at hx
        simp_all
      rwa [this] at he
    · rw [if_neg h2] at hx
      simp at hx

lemma adj_symmetric (g : SGraph) : Symmetric g.Adj := by
  intro u v h
  exact h.elim Or.inr Or.inl

lemma reachAux_sound (g : SGraph) :
    ∀ (k : Nat) (s : List Nat),
      (∀ x ∈ s, Relation.ReflTransGen g.Adj 0 x) →
      ∀ x ∈ g.reachAux k s, Relation.ReflTransGen g.Adj 0 x := by
  intro k
  induction k with
  | zero => intro s hs x hx; exact hs x hx
  | succ j ih =>
    intro s hs x hx
    refine ih (g.expand s) ?_ x hx
    intro y hy
    rcases List.mem_append.mp hy with hy | hy
    · exact hs y hy
    · rcases List.mem_flatMap.mp hy with ⟨z, hz, hyz⟩
      exact (hs z hz).tail (adj_of_mem_adjList g z y hyz)

lemma is_connected_sound (g : SGraph) (h : g.is_connected = true) :
    g.ConnectedProp := by
  intro u v hu hv
  have hall := List.all_eq_true.mp h
  have hstart : ∀ x ∈ [0], Relation.ReflTransGen g.Adj 0 x := by
    intro x hx
    simp only [List.mem_singleton] at hx
    subst hx
    exact Relation.ReflTransGen.refl
  have hreach : ∀ w, w < g.n → Relation.ReflTransGen g.Adj 0 w := by
    intro w hw
    have hmem : (g.reachAux g.n [0]).contains w = true :=
      hall w (List.mem_range.mpr hw)
    have : w ∈ g.reachAux g.n [0] := List.elem_iff.mp hmem
    exact reachAux_sound g g.n [0] hstart w this
  have h0u := hreach u hu
  have h0v := hreach v hv
  have hu0 : Relation.ReflTransGen g.Adj u 0 :=
    (Relation.ReflTransGen.symmetric (adj_symmetric g)) h0u
  exact hu0.trans h0v

/-! ### Opinion bounds machinery -/

/-- All opinion components of every agent in the list lie in `[0,1]`. -/
def AgentsBounded (ags : List CitizenAgent) : Prop :=
  ∀ c ∈ ags, ∀ x ∈ c.opinions, 0 ≤ x ∧ x ≤ 1

lemma getD_bounds (l : List ℚ) (i : Nat)
    (hb : ∀ x ∈ l, 0 ≤ x ∧ x ≤ 1) : 0 ≤ l.getD i 0 ∧ l.getD i 0 ≤ 1 := by
  by_cases h : i < l.length
  · rw [List.getD_eq_getElem?_getD, List.getElem?_eq_getElem h]
    exact hb _ (List.getElem_mem h)
  · rw [List.getD_eq_getElem?_getD, List.getElem?_eq_none (Nat.le_of_not_lt h)]
    norm_num

lemma citizenStepCore_bounds (a nei : CitizenAgent) (Cth : ℚ) (ci pi : Nat)
    (ha : ∀ x ∈ a.opinions, 0 ≤ x ∧ x ≤ 1)
    (hn : ∀ x ∈ nei.opinions, 0 ≤ x ∧ x ≤ 1) :
    ∀ x ∈ (citizenStepCore a nei Cth ci pi).opinions, 0 ≤ x ∧ x ≤ 1 := by
  unfold citizenStepCore
  split
  · exact ha
  · intro x hx
    rcases List.mem_or_eq_of_mem_set hx with h | h
    · exact ha x h
    · subst h
      obtain ⟨h1, h2⟩ := getD_bounds a.opinions pi ha
      obtain ⟨h3, h4⟩ := getD_bounds nei.opinions pi hn
      constructor <;> [linarith; linarith]

lemma agentAt_bounds (ags : List CitizenAgent) (i : Nat) (hb : AgentsBounded ags) :
    ∀ x ∈ (ags.getD i dummyAgent).opinions, 0 ≤ x ∧ x ≤ 1 := by
  by_cases h : i < ags.length
  · rw [List.getD_eq_getElem?_getD, List.getElem?_eq_getElem h]
    exact hb _ (List.getElem_mem h)
  · rw [List.getD_eq_getElem?_getD, List.getElem?_eq_none (Nat.le_of_not_lt h)]
    intro x hx
    simp [dummyAgent] at hx

lemma activateAgent_bounds (m : SocialWorld) (aid : Nat)
    (hb : AgentsBounded m.agents) : AgentsBounded (activateAgent m aid).agents := by
  unfold activateAgent
  split
  · exact hb
  · intro c hc
    rcases List.mem_or_eq_of_mem_set hc with h | h
    · exact hb c h
    · subst h
      exact citizenStepCore_bounds _ _ _ _ _
        (agentAt_bounds m.agents aid hb) (agentAt_bounds m.agents _ hb)

lemma foldl_activate_bounds (l : List Nat) (m : SocialWorld)
    (hb : AgentsBounded m.agents) : AgentsBounded (l.foldl activateAgent m).agents := by
  induction l generalizing m with
  | nil => exact hb
  | cons aid rest ih =>
    simp only [List.foldl_cons]
    exact ih _ (activateAgent_bounds m aid hb)

lemma step_bounds (m : SocialWorld) (hb : AgentsBounded m.agents) :
    AgentsBounded (m.step).agents := by
  rw [step_eq]
  by_cases hr : m.running = true
  · rw [if_pos hr]
    exact foldl_activate_bounds _ _ hb
  · rw [if_neg hr]
    exact hb

lemma iterate_step_bounds (m : SocialWorld) (hb : AgentsBounded m.agents) :
    ∀ k, AgentsBounded ((SocialWorld.step^[k]) m).agents := by
  intro k
  induction k with
  | zero => exact hb
  | succ j ih =>
    rw [Function.iterate_succ_apply']
    exact step_bounds _ ih

lemma uniform01_mem (r : RandomSource) :
    0 ≤ (r.uniform01).1 ∧ (r.uniform01).1 < 1 := by
  unfold RandomSource.uniform01 RandomSource.next
  constructor
  · positivity
  · rw [div_lt_one (by norm_num [DRAW_DENOM])]
    exact_mod_cast Nat.mod_lt _ (by norm_num [DRAW_DENOM])

lemma drawOpinions_mem (k : Nat) :
    ∀ (r : RandomSource), ∀ x ∈ (drawOpinions r k).1, 0 ≤ x ∧ x < 1 := by
  induction k with
  | zero => intro r x hx; simp [drawOpinions] at hx
  | succ j ih =>
    intro r x hx
    unfold drawOpinions at hx
    rcases List.mem_cons.mp hx with h | h
    · subst h
      exact uniform01_mem r
    · exact ih _ x h

lemma drawOpinions_length (k : Nat) (r : RandomSource) :
    (drawOpinions r k).1.length = k := by
  induction k generalizing r with
  | zero => rfl
  | succ j ih => simp [drawOpinions, ih]

lemma mkAgentsAux_mem (I : Nat) :
    ∀ (ids : List Nat) (r : RandomSource),
      ∀ c ∈ (mkAgentsAux I ids r).1, ∀ x ∈ c.opinions, 0 ≤ x ∧ x < 1 := by
  intro ids
  induction ids with
  | nil => intro r c hc; simp [mkAgentsAux] at hc
  | cons i rest ih =>
    intro r c hc
    unfold mkAgentsAux at hc
    rcases List.mem_cons.mp hc with h | h
    · subst h
      intro x hx
      exact drawOpinions_mem I r x hx
    · exact ih _ c h

lemma mkAgentsAux_length (I : Nat) :
    ∀ (ids : List Nat) (r : RandomSource),
      (mkAgentsAux I ids r).1.length = ids.length := by
  intro ids
  induction ids with
  | nil => intro r; rfl
  | cons i rest ih => intro r; simp [mkAgentsAux, ih]

lemma mkAgentsAux_opinions_length (I : Nat) :
    ∀ (ids : List Nat) (r : RandomSource),
      ∀ c ∈ (mkAgentsAux I ids r).1, c.opinions.length = I := by
  intro ids
  induction ids with
  | nil => intro r c hc; simp [mkAgentsAux] at hc
  | cons i rest ih =>
    intro r c hc
    unfold mkAgentsAux at hc
    rcases List.mem_cons.mp hc with h | h
    · subst h
      exact drawOpinions_length I _
    · exact ih _ c h

/-! ### `init` inversion and freshly-constructed engines -/

lemma init_inv (T N I : Nat) (Cth pr : ℚ) (st : Nat → Nat) (cands : List SGraph)
    (m : SocialWorld) (h : SocialWorld.init T N I Cth pr st cands = some m) :
    ∃ G, cands.find? SGraph.is_connected = some G ∧ m = mkWorld T N I Cth pr st G := by
  unfold SocialWorld.init at h
  rcases Option.map_eq_some'.mp h with ⟨G, hG, hm⟩
  exact ⟨G, hG, hm.symm⟩

lemma mkWorld_fields (T N I : Nat) (Cth pr : ℚ) (st : Nat → Nat) (G : SGraph) :
    (mkWorld T N I Cth pr st G).max_steps = T ∧
    (mkWorld T N I Cth pr st G).num_agents = N ∧
    (mkWorld T N I Cth pr st G).num_issues = I ∧
    (mkWorld T N I Cth pr st G).G = G ∧
    (mkWorld T N I Cth pr st G).num_steps = 0 ∧
    (mkWorld T N I Cth pr st G).running = true ∧
    (mkWorld T N I Cth pr st G).series = [] ∧
    (mkWorld T N I Cth pr st G).agents =
      (mkAgentsAux I (List.range N) { stream := st, pos := 0 }).1 :=
  ⟨rfl, rfl, rfl, rfl, rfl, rfl, rfl, rfl⟩

/-! ### Time-series length and the run loop -/

lemma step_len (m : SocialWorld) (h : m.series.length = m.num_steps) :
    (m.step).series.length = (m.step).num_steps := by
  rw [step_eq]
  by_cases hr : m.running = true
  · rw [if_pos hr]
    rw [(schedStep_frame _).1, (schedStep_frame _).2.1]
    simp [h]
  · rw [if_neg hr]
    exact h

lemma iterate_step_len (m : SocialWorld) (h : m.series.length = m.num_steps) :
    ∀ k, ((SocialWorld.step^[k]) m).series.length = ((SocialWorld.step^[k]) m).num_steps := by
  intro k
  induction k with
  | zero => exact h
  | succ j ih =>
    rw [Function.iterate_succ_apply']
    exact step_len _ ih

lemma fresh_iterate (m : SocialWorld) (hr : m.running = true) (h0 : m.num_steps = 0) :
    ∀ k, k ≤ m.max_steps →
      ((SocialWorld.step^[k]) m).num_steps = k ∧
      ((SocialWorld.step^[k]) m).running = true ∧
      ((SocialWorld.step^[k]) m).max_steps = m.max_steps := by
  intro k
  induction k with
  | zero => exact fun _ => ⟨h0, hr, rfl⟩
  | succ j ih =>
    intro hk
    obtain ⟨hns, hru, hmx⟩ := ih (Nat.le_of_succ_le hk)
    rw [Function.iterate_succ_apply', step_eq, if_pos hru]
    refine ⟨?_, ?_, ?_⟩
    · rw [(schedStep_frame _).2.1]
      simp [hns]
    · rw [(schedStep_frame _).2.2.1]
      show decide _ = true
      rw [decide_eq_true_eq, hns, hmx]
      omega
    · rw [(schedStep_frame _).2.2.2.1]
      exact hmx

lemma foldl_range_step (n : Nat) (m : SocialWorld) :
    (List.range n).foldl (fun s _ => s.step) m = (SocialWorld.step^[n]) m := by
  induction n with
  | zero => rfl
  | succ j ih =>
    rw [List.range_succ, List.foldl_append, ih, Function.iterate_succ_apply']
    rfl

lemma run_eq_iterate (m : SocialWorld) :
    m.run = (SocialWorld.step^[m.max_steps]) m :=
  foldl_range_step m.max_steps m

/-! ### The drawn issue pair is distinct and in range -/

lemma getD_mem_of_lt (l : List Nat) (i : Nat) (h : i < l.length) :
    l.getD i 0 ∈ l := by
  rw [List.getD_eq_getElem?_getD, List.getElem?_eq_getElem h]
  exact List.getElem_mem h

lemma getD_not_mem_eraseIdx :
    ∀ (l : List Nat), l.Nodup → ∀ i, i < l.length → l.getD i 0 ∉ l.eraseIdx i := by
  intro l
  induction l with
  | nil => intro _ i hi; simp at hi
  | cons x xs ih =>
    intro hnd i hi
    rcases List.nodup_cons.mp hnd with ⟨hx, hxs⟩
    cases i with
    | zero => simpa using hx
    | succ j =>
      have hj : j < xs.length := by simpa using hi
      show xs.getD j 0 ∉ x :: xs.eraseIdx j
      intro hmem
      rcases List.mem_cons.mp hmem with h | h
      · exact hx (h ▸ getD_mem_of_lt xs j hj)
      · exact ih hxs j hj h

lemma pair_neq (I i1 j : Nat) (h1 : i1 < I)
    (hj : j < ((List.range I).eraseIdx i1).length) :
    (List.range I).getD i1 0 ≠ ((List.range I).eraseIdx i1).getD j 0 ∧
    (List.range I).getD i1 0 < I ∧
    ((List.range I).eraseIdx i1).getD j 0 < I := by
  have h1l : i1 < (List.range I).length := by simpa using h1
  have hmem : ((List.range I).eraseIdx i1).getD j 0 ∈ (List.range I).eraseIdx i1 :=
    getD_mem_of_lt _ j hj
  have hnot : (List.range I).getD i1 0 ∉ (List.range I).eraseIdx i1 :=
    getD_not_mem_eraseIdx _ (List.nodup_range I) i1 h1l
  refine ⟨fun he => hnot (he ▸ hmem), ?_, ?_⟩
  · have : (List.range I).getD i1 0 = i1 := by
      rw [List.getD_eq_getElem?_getD, List.getElem?_eq_getElem h1l]
      simp
    rw [this]; exact h1
  · exact List.mem_range.mp (List.mem_of_mem_eraseIdx hmem)

lemma drawPair_spec (r : RandomSource) (I : Nat) (h2 : 2 ≤ I) :
    ((drawPair r I).1).1 ≠ ((drawPair r I).1).2 ∧
    ((drawPair r I).1).1 < I ∧ ((drawPair r I).1).2 < I := by
  have hIpos : 0 < I := by omega
  have h1 : r.stream r.pos % I < I := Nat.mod_lt _ hIpos
  have hlen : ((List.range I).eraseIdx (r.stream r.pos % I)).length = I - 1 := by
    rw [List.length_eraseIdx_of_lt (by simpa using h1)]
    simp
  have hlpos : 0 < ((List.range I).eraseIdx (r.stream r.pos % I)).length := by
    rw [hlen]; omega
  have hj := Nat.mod_lt (r.stream (r.pos + 1)) hlpos
  exact pair_neq I _ _ h1 hj

/-! ### Claim C1 -/

/-- A state whose step counter has already reached `max_steps` while the
running flag is still set. -/
def wTerm : SocialWorld :=
  { max_steps := 5, num_agents := 1, num_issues := 1, Cthresh := 1, p := 0,
    G := { n := 1, edges := [] },
    agents := [{ unique_id := 0, opinions := [1/2] }],
    num_steps := 5, running := true, series := [],
    rng := { stream := fun _ => 0, pos := 0 } }

/-- C1 (counterexample): at a running state whose counter has reached
`max_steps`, `step()` does not return early — it still increments the
counter and appends a metrics record, contradicting the claim that the
terminal check precedes all work. -/
theorem C1_counterexample :
    wTerm.running = true ∧ wTerm.max_steps ≤ wTerm.num_steps ∧
    (wTerm.step).running = false ∧
    (wTerm.step).num_steps = wTerm.num_steps + 1 ∧
    (wTerm.step).series.length = wTerm.series.length + 1 := by
  refine ⟨rfl, by decide, ?_, ?_, ?_⟩ <;> with_unfolding_all rfl

/-- C1 (amended): `step()` is a no-op when the running flag is false;
otherwise it increments the step counter, collects metrics on the
current state, and activates the scheduler once, unconditionally — the
terminal check (counter ≥ max_steps) only clears the running flag for
future calls and does not return early. -/
theorem C1_step_transition (m : SocialWorld) :
    m.step =
      if m.running then
        schedStep { m with running := decide (m.num_steps < m.max_steps),
                           num_steps := m.num_steps + 1,
                           series := m.series ++ [collectRecord m] }
      else m :=
  step_eq m

/-! ### Claim C2 -/

/-- C2 (amended): construction and stepping are deterministic functions
of the configuration, the seeded generator's stream, and the graph the
retry loop settles on; so two engines with identical configuration and
identical seed whose (externally random) graph generation yields the
same graph produce identical time series. -/
theorem C2_seed_determinism (T N I : Nat) (Cth pr : ℚ) (st : Nat → Nat)
    (cA cB : List SGraph) (mA mB : SocialWorld)
    (hA : SocialWorld.init T N I Cth pr st cA = some mA)
    (hB : SocialWorld.init T N I Cth pr st cB = some mB)
    (hG : mA.G = mB.G) : mA.run.series = mB.run.series := by
  obtain ⟨GA, hGA, hmA⟩ := init_inv T N I Cth pr st cA mA hA
  obtain ⟨GB, hGB, hmB⟩ := init_inv T N I Cth pr st cB mB hB
  subst hmA
  subst hmB
  have hg : GA = GB := hG
  rw [hg]

def gDet : SGraph := { n := 2, edges := [(0, 1)] }

def gDisc : SGraph := { n := 2, edges := [] }

def wDet : SocialWorld := mkWorld 1 2 2 1 0 (fun _ => 1) gDet

/-- C2 (witness): two engines with the same configuration and stream,
whose graph retry loops settle on the same graph (the second one after
first rejecting a disconnected candidate), have equal time series. -/
theorem C2_seed_determinism_witness :
    SocialWorld.init 1 2 2 1 0 (fun _ => 1) [gDet] = some wDet ∧
    SocialWorld.init 1 2 2 1 0 (fun _ => 1) [gDisc, gDet] = some wDet ∧
    wDet.G = wDet.G ∧ wDet.run.series = wDet.run.series := by
  refine ⟨by with_unfolding_all rfl, by with_unfolding_all rfl, rfl, ?_⟩
  exact C2_seed_determinism 1 2 2 1 0 (fun _ => 1) [gDet] [gDisc, gDet] wDet wDet
    (by with_unfolding_all rfl) (by with_unfolding_all rfl) rfl

/-- The stream the seeded generator produces (same in both engines). -/
def exStream : Nat → Nat := fun n => n

/-- First graph the global source hands one engine instance. -/
def gPath : SGraph := { n := 3, edges := [(0, 1), (1, 2)] }

/-- Different graph the global source hands the other instance. -/
def gStar : SGraph := { n := 3, edges := [(0, 1), (0, 2)] }

def exA : SocialWorld := mkWorld 2 3 2 1 (1/5) exStream gPath

def exB : SocialWorld := mkWorld 2 3 2 1 (1/5) exStream gStar

/-- C2 (counterexample): two engines constructed with identical
configuration and identical seed stream, but whose graph generation —
which draws from the global random state, not from the engine's seeded
generator — yields different connected graphs, produce different time
series.  Reproducibility from configuration + seed alone fails. -/
theorem C2_counterexample :
    SocialWorld.init 2 3 2 1 (1/5) exStream [gPath] = some exA ∧
    SocialWorld.init 2 3 2 1 (1/5) exStream [gStar] = some exB ∧
    exA.run.series ≠ exB.run.series := by
  refine ⟨by with_unfolding_all rfl, by with_unfolding_all rfl, ?_⟩
  intro h
  have h2 : ((exA.run.series.getD 1 []).getD 1 ("", none)).2 =
      ((exB.run.series.getD 1 []).getD 1 ("", none)).2 := by rw [h]
  exact absurd h2 (by with_unfolding_all decide)

/-! ### Claim C3 -/

/-- The names of the columns every collected record carries. -/
def fixedReporterNames : List String :=
  reporterPairs.map fun pr => reporterName pr.1 pr.2

/-- C3: the collector never records an aggregate dispersion column —
every record's keys are exactly the twelve `agent{a}_iss{i}` names
(`mean_opinion_var` is defined in the source but never registered as a
reporter, while the plotting code reads a `MeanOpinionVar` column). -/
theorem C3_no_dispersion_column (m : SocialWorld) :
    (collectRecord m).map Prod.fst = fixedReporterNames ∧
    "MeanOpinionVar" ∉ fixedReporterNames := by
  exact ⟨rfl, by decide⟩

/-! ### Claim C4 -/

/-- C4: the interaction step — given the drawn neighbor and the drawn
distinct issue pair, a comparison gap above `Cthresh` leaves the
initiating agent unchanged (and the neighbor is never written at all);
otherwise only the persuade component moves, to the exact average of
the two agents' values there.  The drawn pair is always distinct and in
range, and an activation never writes any agent other than the
activated one. -/
theorem C4_interaction (a nei : CitizenAgent) (Cth : ℚ) (ci pj : Nat)
    (hci : ci < a.opinions.length) (hpj : pj < a.opinions.length) (hne : ci ≠ pj) :
    (|a.opinions.getD ci 0 - nei.opinions.getD ci 0| > Cth →
      citizenStepCore a nei Cth ci pj = a) ∧
    (¬(|a.opinions.getD ci 0 - nei.opinions.getD ci 0| > Cth) →
      (citizenStepCore a nei Cth ci pj).opinions[pj]? =
        some ((a.opinions.getD pj 0 + nei.opinions.getD pj 0) / 2) ∧
      ∀ j, j ≠ pj →
        (citizenStepCore a nei Cth ci pj).opinions[j]? = a.opinions[j]?) ∧
    (∀ (m : SocialWorld) (aid j : Nat), j ≠ aid →
      (activateAgent m aid).agents[j]? = m.agents[j]?) ∧
    (∀ (r : RandomSource) (I : Nat), 2 ≤ I →
      ((drawPair r I).1).1 ≠ ((drawPair r I).1).2 ∧
      ((drawPair r I).1).1 < I ∧ ((drawPair r I).1).2 < I) := by
  refine ⟨?_, ?_, ?_, ?_⟩
  · intro h
    unfold citizenStepCore
    rw [if_pos h]
  · intro h
    unfold citizenStepCore
    rw [if_neg h]
    refine ⟨List.getElem?_set_self hpj, ?_⟩
    intro j hj
    exact List.getElem?_set_ne (Ne.symm hj)
  · intro m aid j hj
    unfold activateAgent
    split
    · rfl
    · exact List.getElem?_set_ne (Ne.symm hj)
  · intro r I h2
    exact drawPair_spec r I h2

def aW : CitizenAgent := { unique_id := 0, opinions := [0, 1/2] }

def bW : CitizenAgent := { unique_id := 1, opinions := [1/4, 1] }

/-- C4 (witness): the interaction contract instantiated at a concrete
pair of two-issue agents with comparison issue 0 and persuade issue 1. -/
theorem C4_interaction_witness :
    (0 < aW.opinions.length ∧ 1 < aW.opinions.length ∧ (0 : Nat) ≠ 1) ∧
    ((|aW.opinions.getD 0 0 - bW.opinions.getD 0 0| > 1 →
        citizenStepCore aW bW 1 0 1 = aW) ∧
      (¬(|aW.opinions.getD 0 0 - bW.opinions.getD 0 0| > 1) →
        (citizenStepCore aW bW 1 0 1).opinions[1]? =
          some ((aW.opinions.getD 1 0 + bW.opinions.getD 1 0) / 2) ∧
        ∀ j, j ≠ 1 →
          (citizenStepCore aW bW 1 0 1).opinions[j]? = aW.opinions[j]?) ∧
      (∀ (m : SocialWorld) (aid j : Nat), j ≠ aid →
        (activateAgent m aid).agents[j]? = m.agents[j]?) ∧
      (∀ (r : RandomSource) (I : Nat), 2 ≤ I →
        ((drawPair r I).1).1 ≠ ((drawPair r I).1).2 ∧
        ((drawPair r I).1).1 < I ∧ ((drawPair r I).1).2 < I)) :=
  ⟨⟨by decide, by decide, by decide⟩,
    C4_interaction aW bW 1 0 1 (by decide) (by decide) (by decide)⟩

/-! ### Claim C5 -/

def gTwo : SGraph := { n := 2, edges := [(0, 1)] }

def wTwo : SocialWorld := mkWorld 1 2 2 1 0 (fun n => n + 2) gTwo

/-- C5 (counterexample): with the valid configuration N = 2, I = 2 the
collector still declares the reading `agent3_iss2` — outside the
min(4,N) × min(3,I) grid the claim describes — and its accessor indexes
past both the agent list and the opinion vector (Python would raise). -/
theorem C5_counterexample :
    SocialWorld.init 1 2 2 1 0 (fun n => n + 2) [gTwo] = some wTwo ∧
    "agent3_iss2" ∈ (collectRecord wTwo).map Prod.fst ∧
    get_opinion wTwo 3 2 = none := by
  refine ⟨by with_unfolding_all rfl, by decide, by with_unfolding_all rfl⟩

/-- C5 (amended): the declared reading set is the fixed grid
`agent{0..3}_iss{0..2}` whatever N and I are; whenever N ≥ 4 and I ≥ 3
every reading accessor returns the in-range value
`agents[a].opinions[i]` (for N < 4 or I < 3 some accessor indexes out
of range, see the counterexample). -/
theorem C5_reporters (T N I : Nat) (Cth pr : ℚ) (st : Nat → Nat)
    (cands : List SGraph) (m : SocialWorld)
    (h : SocialWorld.init T N I Cth pr st cands = some m)
    (hN : 4 ≤ N) (hI : 3 ≤ I) :
    (collectRecord m).map Prod.fst = fixedReporterNames ∧
    ∀ pr2 ∈ reporterPairs, ∃ q, get_opinion m pr2.1 pr2.2 = some q := by
  obtain ⟨G, hG, hm⟩ := init_inv T N I Cth pr st cands m h
  subst hm
  refine ⟨rfl, ?_⟩
  intro pr2 hpr
  have hb : pr2.1 < 4 ∧ pr2.2 < 3 := by
    have hall : ∀ q ∈ reporterPairs, q.1 < 4 ∧ q.2 < 3 := by decide
    exact hall pr2 hpr
  have hlen : (mkWorld T N I Cth pr st G).agents.length = N := by
    show (mkAgentsAux I (List.range N) _).1.length = N
    rw [mkAgentsAux_length]
    simp
  have h1 : pr2.1 < (mkWorld T N I Cth pr st G).agents.length := by omega
  have hmem := List.getElem_mem h1
  have holen : ((mkWorld T N I Cth pr st G).agents[pr2.1]).opinions.length = I :=
    mkAgentsAux_opinions_length I (List.range N) _ _ hmem
  have h2 : pr2.2 < ((mkWorld T N I Cth pr st G).agents[pr2.1]).opinions.length := by
    omega
  refine ⟨((mkWorld T N I Cth pr st G).agents[pr2.1]).opinions[pr2.2], ?_⟩
  unfold get_opinion
  rw [List.getElem?_eq_getElem h1]
  simpa using List.getElem?_eq_getElem h2

def gFour : SGraph := { n := 4, edges := [(0, 1), (1, 2), (2, 3)] }

def wFour : SocialWorld := mkWorld 1 4 3 1 0 (fun n => n) gFour

/-- C5 (witness): with N = 4 and I = 3 the reading set is the full grid
and every accessor is in range. -/
theorem C5_reporters_witness :
    SocialWorld.init 1 4 3 1 0 (fun n => n) [gFour] = some wFour ∧
    4 ≤ 4 ∧ 3 ≤ 3 ∧
    ((collectRecord wFour).map Prod.fst = fixedReporterNames ∧
      ∀ pr2 ∈ reporterPairs, ∃ q, get_opinion wFour pr2.1 pr2.2 = some q) := by
  refine ⟨by with_unfolding_all rfl, by decide, by decide, ?_⟩
  exact C5_reporters 1 4 3 1 0 (fun n => n) [gFour] wFour
    (by with_unfolding_all rfl) (by decide) (by decide)

/-! ### Claim C6 -/

/-- C6: every graph a fully constructed engine holds is connected —
the retry loop only ever settles on a candidate passing the
connectivity check — and stepping never mutates the topology. -/
theorem C6_graph_connected (T N I : Nat) (Cth pr : ℚ) (st : Nat → Nat)
    (cands : List SGraph) (m : SocialWorld)
    (h : SocialWorld.init T N I Cth pr st cands = some m) :
    m.G.ConnectedProp ∧ ∀ k, ((SocialWorld.step^[k]) m).G = m.G := by
  obtain ⟨G, hG, hm⟩ := init_inv T N I Cth pr st cands m h
  subst hm
  constructor
  · exact is_connected_sound G (List.find?_some hG)
  · intro k
    induction k with
    | zero => rfl
    | succ j ih => rw [Function.iterate_succ_apply', (step_frame _).2.1, ih]

def gW6 : SGraph := { n := 2, edges := [(0, 1)] }

def wC6 : SocialWorld := mkWorld 2 2 2 1 0 (fun n => 5 * n) gW6

/-- C6 (witness): a concrete two-node engine: its graph is connected
and unchanged by stepping. -/
theorem C6_graph_connected_witness :
    SocialWorld.init 2 2 2 1 0 (fun n => 5 * n) [gW6] = some wC6 ∧
    (wC6.G.ConnectedProp ∧ ∀ k, ((SocialWorld.step^[k]) wC6).G = wC6.G) := by
  refine ⟨by with_unfolding_all rfl, ?_⟩
  exact C6_graph_connected 2 2 2 1 0 (fun n => 5 * n) [gW6] wC6
    (by with_unfolding_all rfl)

/-! ### Claim C7 -/

/-- C7: initial opinions are drawn in `[0,1)`, and after any number of
steps every opinion of every agent stays in `[0,1]` — the only mutation
is an average of two in-range values. -/
theorem C7_opinions_bounded (T N I : Nat) (Cth pr : ℚ) (st : Nat → Nat)
    (cands : List SGraph) (m : SocialWorld)
    (h : SocialWorld.init T N I Cth pr st cands = some m) :
    (∀ c ∈ m.agents, ∀ x ∈ c.opinions, 0 ≤ x ∧ x < 1) ∧
    ∀ k, ∀ c ∈ ((SocialWorld.step^[k]) m).agents, ∀ x ∈ c.opinions,
      0 ≤ x ∧ x ≤ 1 := by
  obtain ⟨G, hG, hm⟩ := init_inv T N I Cth pr st cands m h
  subst hm
  have hinit : ∀ c ∈ (mkWorld T N I Cth pr st G).agents,
      ∀ x ∈ c.opinions, 0 ≤ x ∧ x < 1 :=
    fun c hc => mkAgentsAux_mem I (List.range N) _ c hc
  refine ⟨hinit, ?_⟩
  have hb : AgentsBounded (mkWorld T N I Cth pr st G).agents := by
    intro c hc x hx
    obtain ⟨h1, h2⟩ := hinit c hc x hx
    exact ⟨h1, le_of_lt h2⟩
  intro k
  exact iterate_step_bounds _ hb k

def gW7 : SGraph := { n := 2, edges := [(0, 1)] }

def wC7 : SocialWorld := mkWorld 1 2 2 1 0 (fun n => n * n) gW7

/-- C7 (witness): bounds instantiated at a concrete two-agent engine. -/
theorem C7_opinions_bounded_witness :
    SocialWorld.init 1 2 2 1 0 (fun n => n * n) [gW7] = some wC7 ∧
    ((∀ c ∈ wC7.agents, ∀ x ∈ c.opinions, 0 ≤ x ∧ x < 1) ∧
      ∀ k, ∀ c ∈ ((SocialWorld.step^[k]) wC7).agents, ∀ x ∈ c.opinions,
        0 ≤ x ∧ x ≤ 1) := by
  refine ⟨by with_unfolding_all rfl, ?_⟩
  exact C7_opinions_bounded 1 2 2 1 0 (fun n => n * n) [gW7] wC7
    (by with_unfolding_all rfl)

/-! ### Claim C8 -/

/-- C8: every executed scheduler activation draws a fresh full
permutation of the agent identifiers from the engine's random source —
the drawn order contains every agent id below `num_agents` exactly once
— and the scheduler activates agents by folding over exactly that
order.  (The scheduler itself is `mesa`'s `RandomActivation`, modelled
from the spec's contract.) -/
theorem C8_scheduler_once (m : SocialWorld) (aid : Nat) (h : aid < m.num_agents) :
    ((schedOrder m).1).Perm (List.range m.num_agents) ∧
    ((schedOrder m).1).count aid = 1 ∧
    schedStep m = ((schedOrder m).1).foldl activateAgent
      { m with rng := (schedOrder m).2 } := by
  have hperm : ((schedOrder m).1).Perm (List.range m.num_agents) :=
    drawPermAux_perm m.num_agents (List.range m.num_agents) m.rng (by simp)
  refine ⟨hperm, ?_, rfl⟩
  rw [hperm.count_eq]
  exact List.count_eq_one_of_mem (List.nodup_range _) (List.mem_range.mpr h)

def wC8 : SocialWorld :=
  { max_steps := 1, num_agents := 3, num_issues := 2, Cthresh := 1, p := 0,
    G := { n := 3, edges := [(0, 1), (1, 2)] },
    agents := [{ unique_id := 0, opinions := [0, 1/2] },
               { unique_id := 1, opinions := [1/4, 3/4] },
               { unique_id := 2, opinions := [1/8, 1] }],
    num_steps := 0, running := true, series := [],
    rng := { stream := fun n => n + 7, pos := 0 } }

/-- C8 (witness): the permutation/count/fold facts at a concrete
three-agent state, for agent id 0. -/
theorem C8_scheduler_once_witness :
    0 < wC8.num_agents ∧
    (((schedOrder wC8).1).Perm (List.range wC8.num_agents) ∧
      ((schedOrder wC8).1).count 0 = 1 ∧
      schedStep wC8 = ((schedOrder wC8).1).foldl activateAgent
        { wC8 with rng := (schedOrder wC8).2 }) :=
  ⟨by decide, C8_scheduler_once wC8 0 (by decide)⟩

/-! ### Claim C9 -/

/-- C9: `run()` performs exactly `max_steps` calls of `step()`
unconditionally (the loop is `step` iterated `max_steps` times), the
time-series length always equals the step counter along the way, and
after `run()` on a freshly constructed engine the series holds exactly
`max_steps` records. -/
theorem C9_run_length (T N I : Nat) (Cth pr : ℚ) (st : Nat → Nat)
    (cands : List SGraph) (m : SocialWorld)
    (h : SocialWorld.init T N I Cth pr st cands = some m) :
    m.run = (SocialWorld.step^[m.max_steps]) m ∧
    (∀ k, ((SocialWorld.step^[k]) m).series.length =
      ((SocialWorld.step^[k]) m).num_steps) ∧
    m.run.series.length = m.max_steps := by
  obtain ⟨G, hG, hm⟩ := init_inv T N I Cth pr st cands m h
  subst hm
  refine ⟨run_eq_iterate _, iterate_step_len _ rfl, ?_⟩
  rw [run_eq_iterate, iterate_step_len _ rfl]
  exact (fresh_iterate _ rfl rfl _ le_rfl).1

def gW9 : SGraph := { n := 2, edges := [(0, 1)] }

def wC9 : SocialWorld := mkWorld 2 2 2 1 0 (fun n => 2 * n + 1) gW9

/-- C9 (witness): the run/series-length facts at a concrete engine with
`max_steps = 2`. -/
theorem C9_run_length_witness :
    SocialWorld.init 2 2 2 1 0 (fun n => 2 * n + 1) [gW9] = some wC9 ∧
    (wC9.run = (SocialWorld.step^[wC9.max_steps]) wC9 ∧
      (∀ k, ((SocialWorld.step^[k]) wC9).series.length =
        ((SocialWorld.step^[k]) wC9).num_steps) ∧
      wC9.run.series.length = wC9.max_steps) := by
  refine ⟨by with_unfolding_all rfl, ?_⟩
  exact C9_run_length 2 2 2 1 0 (fun n => 2 * n + 1) [gW9] wC9
    (by with_unfolding_all rfl)

/-! ### Claim C10 -/

/-- C10: after `run()` on a fresh engine the running flag is still true
and the counter equals `max_steps`; one further external `step()` call
clears the flag but still increments the counter to `max_steps + 1`,
collects one more record, and activates the scheduler, and only the
calls after that are no-ops. -/
theorem C10_extra_step (T N I : Nat) (Cth pr : ℚ) (st : Nat → Nat)
    (cands : List SGraph) (m : SocialWorld)
    (h : SocialWorld.init T N I Cth pr st cands = some m) (hT : 1 ≤ T) :
    m.run.running = true ∧ m.run.num_steps = T ∧
    (m.run.step).running = false ∧
    (m.run.step).num_steps = T + 1 ∧
    (m.run.step).series.length = T + 1 ∧
    m.run.step = schedStep { m.run with
                             running := false,
                             num_steps := m.run.num_steps + 1,
                             series := m.run.series ++ [collectRecord m.run] } ∧
    (m.run.step).step = m.run.step := by
  obtain ⟨G, hG, hm⟩ := init_inv T N I Cth pr st cands m h
  subst hm
  have hfr := fresh_iterate (mkWorld T N I Cth pr st G) rfl rfl
    (mkWorld T N I Cth pr st G).max_steps le_rfl
  have hrun_run : (mkWorld T N I Cth pr st G).run.running = true := by
    rw [run_eq_iterate]
    exact hfr.2.1
  have hrun_ns : (mkWorld T N I Cth pr st G).run.num_steps = T := by
    rw [run_eq_iterate]
    exact hfr.1
  have hrun_mx : (mkWorld T N I Cth pr st G).run.max_steps = T := by
    rw [run_eq_iterate]
    exact hfr.2.2
  have hrun_len : (mkWorld T N I Cth pr st G).run.series.length = T := by
    rw [run_eq_iterate, iterate_step_len _ rfl]
    exact hfr.1
  have hd : decide ((mkWorld T N I Cth pr st G).run.num_steps <
      (mkWorld T N I Cth pr st G).run.max_steps) = false := by
    rw [hrun_ns, hrun_mx]
    simp
  have hstep_run : ((mkWorld T N I Cth pr st G).run.step).running = false := by
    rw [step_eq, if_pos hrun_run, (schedStep_frame _).2.2.1]
    exact hd
  have hstep_ns : ((mkWorld T N I Cth pr st G).run.step).num_steps = T + 1 := by
    rw [step_eq, if_pos hrun_run, (schedStep_frame _).2.1]
    show (mkWorld T N I Cth pr st G).run.num_steps + 1 = T + 1
    rw [hrun_ns]
  have hstep_len : ((mkWorld T N I Cth pr st G).run.step).series.length = T + 1 := by
    rw [step_eq, if_pos hrun_run, (schedStep_frame _).1]
    show ((mkWorld T N I Cth pr st G).run.series ++ [_]).length = T + 1
    rw [List.length_append, hrun_len]
    rfl
  refine ⟨hrun_run, hrun_ns, hstep_run, hstep_ns, hstep_len, ?_, ?_⟩
  · rw [step_eq, if_pos hrun_run, hd]
  · rw [step_eq ((mkWorld T N I Cth pr st G).run.step),
      if_neg (by rw [hstep_run]; exact Bool.false_ne_true)]

def gOne : SGraph := { n := 1, edges := [] }

def wOne : SocialWorld := mkWorld 1 1 2 1 0 (fun n => 3 * n + 1) gOne

/-- C10 (witness): the post-run facts at a concrete one-agent engine
with `max_steps = 1`. -/
theorem C10_extra_step_witness :
    SocialWorld.init 1 1 2 1 0 (fun n => 3 * n + 1) [gOne] = some wOne ∧
    1 ≤ 1 ∧
    (wOne.run.running = true ∧ wOne.run.num_steps = 1 ∧
      (wOne.run.step).running = false ∧
      (wOne.run.step).num_steps = 1 + 1 ∧
      (wOne.run.step).series.length = 1 + 1 ∧
      wOne.run.step = schedStep { wOne.run with
                                  running := false,
                                  num_steps := wOne.run.num_steps + 1,
                                  series := wOne.run.series ++ [collectRecord wOne.run] } ∧
      (wOne.run.step).step = wOne.run.step) := by
  refine ⟨by with_unfolding_all rfl, by decide, ?_⟩
  exact C10_extra_step 1 1 2 1 0 (fun n => 3 * n + 1) [gOne] wOne
    (by with_unfolding_all rfl) (by decide)
